import Mathlib

/-!
Shallow embedding of the load-balancing and membership-watch subsystem of
the go_gateway repository: the round-robin, smooth weighted round-robin
and consistent-hash balancing strategies, the pool rebuild performed by
their Update methods, and the zookeeper children-watch loop.

Conventions: Go `int` values are modelled as `Int` (or as `Nat` for the
round-robin cursor, which the code keeps in `[0, poolSize)`), Go `error`
results as `Option String` where `none` is a nil error, and Go slices as
`List`s.  Stateful methods take the receiver and return the updated
receiver alongside their Go return values.
-/

/-- The `RoundRobinBalance` struct: selection cursor `curIndex` plus the
address pool `rss`.  The attached config source is passed to `Update`
explicitly as the list its `GetConf()` returns. -/
structure RoundRobinBalance where
  curIndex : Nat
  rss : List String
deriving Repr, DecidableEq

/-- `RoundRobinBalance.Next`: on the empty pool return `""` and leave the
state alone; otherwise advance the cursor by one modulo the pool size and
return the address stored at the new cursor. -/
def RoundRobinBalance.Next (r : RoundRobinBalance) : String × RoundRobinBalance :=
  if r.rss.length = 0 then ("", r)
  else
    let nextIndex := (r.curIndex + 1) % r.rss.length
    (r.rss.getD nextIndex "", { r with curIndex := nextIndex })

/-- `RoundRobinBalance.Get`: returns `Next()` paired with a nil error. -/
def RoundRobinBalance.Get (r : RoundRobinBalance) (key : String) :
    (String × Option String) × RoundRobinBalance :=
  ((r.Next.1, none), r.Next.2)

/-- Run `k` consecutive `Next()` calls, collecting the returned addresses
in order together with the final state. -/
def RoundRobinBalance.run (r : RoundRobinBalance) : Nat → List String × RoundRobinBalance
  | 0 => ([], r)
  | k + 1 =>
    let step := r.Next
    let rest := step.2.run k
    (step.1 :: rest.1, rest.2)

theorem RoundRobinBalance.next_of_pos (r : RoundRobinBalance) (h : 0 < r.rss.length) :
    r.Next = (r.rss.getD ((r.curIndex + 1) % r.rss.length) "",
      { r with curIndex := (r.curIndex + 1) % r.rss.length }) := by
  unfold Next
  rw [if_neg (by omega)]

theorem RoundRobinBalance.run_rss (r : RoundRobinBalance) (k : Nat) :
    (r.run k).2.rss = r.rss := by
  induction k generalizing r with
  | zero => rfl
  | succ k ih =>
    show (r.Next.2.run k).2.rss = r.rss
    rw [ih r.Next.2]
    unfold Next
    by_cases h : r.rss.length = 0 <;> simp [h]

theorem RoundRobinBalance.run_fst (r : RoundRobinBalance) (h : 0 < r.rss.length) (k : Nat) :
    (r.run k).1 =
      (List.range k).map (fun i => r.rss.getD ((r.curIndex + 1 + i) % r.rss.length) "") := by
  induction k generalizing r with
  | zero => rfl
  | succ k ih =>
    show (r.Next.1 :: (r.Next.2.run k).1) = _
    rw [next_of_pos r h]
    rw [ih { curIndex := (r.curIndex + 1) % r.rss.length, rss := r.rss } h]
    rw [List.range_succ_eq_map, List.map_cons, List.map_map]
    simp only [List.cons.injEq, Function.comp]
    refine ⟨by simp, ?_⟩
    apply List.map_congr_left
    intro i _
    have hmod : ((r.curIndex + 1) % r.rss.length + 1 + i) % r.rss.length
        = (r.curIndex + 1 + Nat.succ i) % r.rss.length := by
      rw [Nat.add_assoc, Nat.mod_add_mod]
      congr 1
      omega
    simp only [Function.comp_apply, hmod]

theorem RoundRobinBalance.run_cur (r : RoundRobinBalance) (h : 0 < r.rss.length)
    (k : Nat) (hk : 0 < k) :
    (r.run k).2.curIndex = (r.curIndex + k) % r.rss.length := by
  induction k generalizing r with
  | zero => omega
  | succ k ih =>
    show (r.Next.2.run k).2.curIndex = _
    rcases Nat.eq_zero_or_pos k with hk0 | hkpos
    · subst hk0
      show r.Next.2.curIndex = _
      rw [next_of_pos r h]
    · have hlen : r.Next.2.rss.length = r.rss.length := by rw [next_of_pos r h]
      have h2 : 0 < r.Next.2.rss.length := by rw [hlen]; exact h
      rw [ih r.Next.2 h2 hkpos, hlen]
      rw [next_of_pos r h]
      show ((r.curIndex + 1) % r.rss.length + k) % r.rss.length = _
      rw [Nat.mod_add_mod]
      congr 1
      omega

theorem RoundRobinBalance.run_fst_length (r : RoundRobinBalance) (k : Nat) :
    (r.run k).1.length = k := by
  induction k generalizing r with
  | zero => rfl
  | succ k ih =>
    show (r.Next.1 :: (r.Next.2.run k).1).length = k + 1
    simp [ih]

theorem rotate_formula (l : List String) (c : Nat) (h : 0 < l.length) :
    (List.range l.length).map (fun i => l.getD ((c + 1 + i) % l.length) "")
      = l.rotate ((c + 1) % l.length) := by
  apply List.ext_getElem
  · rw [List.length_map, List.length_range, List.length_rotate]
  · intro i h1 h2
    have hget := List.get_rotate l ((c + 1) % l.length)
      ⟨i, by rwa [List.length_rotate] at h2 ⊢⟩
    simp only [List.get_eq_getElem] at hget
    rw [List.getElem_map, List.getElem_range, hget]
    have hm : (c + 1 + i) % l.length < l.length := Nat.mod_lt _ h
    rw [List.getD_eq_getElem l "" hm]
    congr 1
    rw [Nat.add_comm i, Nat.mod_add_mod]

theorem RoundRobinBalance.run_fst_eq_rotate (r : RoundRobinBalance) (h : 0 < r.rss.length) :
    (r.run r.rss.length).1 = r.rss.rotate ((r.curIndex + 1) % r.rss.length) := by
  rw [run_fst r h]
  exact rotate_formula r.rss r.curIndex h

/-- C3: for a round-robin pool of `N ≥ 1` addresses, `N` consecutive
`Next()` calls return the pool rotated to start just after the cursor —
each pool entry exactly once — and the `(N+1)`-th call repeats the first
address of that cycle; on the fresh pool `["a", "b", "c"]` four calls
return `"b", "c", "a", "b"` (checked in the witness). -/
theorem round_robin_rotation (r : RoundRobinBalance) (h : 0 < r.rss.length) :
    (r.run r.rss.length).1 = r.rss.rotate ((r.curIndex + 1) % r.rss.length)
    ∧ (r.run r.rss.length).1.Perm r.rss
    ∧ (r.run (r.rss.length + 1)).1.getD r.rss.length ""
        = (r.run (r.rss.length + 1)).1.getD 0 "" := by
  refine ⟨RoundRobinBalance.run_fst_eq_rotate r h, ?_, ?_⟩
  · rw [RoundRobinBalance.run_fst_eq_rotate r h]
    exact List.rotate_perm _ _
  · rw [RoundRobinBalance.run_fst r h]
    have hN : r.rss.length <
        ((List.range (r.rss.length + 1)).map
          (fun i => r.rss.getD ((r.curIndex + 1 + i) % r.rss.length) "")).length := by
      simp
    have h0 : 0 <
        ((List.range (r.rss.length + 1)).map
          (fun i => r.rss.getD ((r.curIndex + 1 + i) % r.rss.length) "")).length := by
      simp
    rw [List.getD_eq_getElem _ "" hN, List.getD_eq_getElem _ "" h0]
    rw [List.getElem_map, List.getElem_map, List.getElem_range, List.getElem_range]
    congr 1
    rw [Nat.add_mod_right, Nat.add_zero]

theorem round_robin_rotation_witness :
    (0 < (RoundRobinBalance.mk 0 ["a", "b", "c"]).rss.length
      ∧ ((RoundRobinBalance.mk 0 ["a", "b", "c"]).run 3).1.Perm ["a", "b", "c"])
    ∧ ((RoundRobinBalance.mk 0 ["a", "b", "c"]).run 4).1 = ["b", "c", "a", "b"] := by
  refine ⟨⟨by decide, (round_robin_rotation ⟨0, ["a", "b", "c"]⟩ (by decide)).2.1⟩, by rfl⟩

/-- Go `strings.Split(s, ",")`: the separator is the single character
',', so this is exactly splitting the character list on each comma. -/
def goSplit (s : String) : List String :=
  (s.toList.splitOnP (fun c => c = ',')).map (fun l => String.mk l)

theorem goSplit_ne_nil (s : String) : goSplit s ≠ [] := by
  unfold goSplit
  intro hmap
  exact List.splitOnP_ne_nil _ s.toList (List.map_eq_nil.mp hmap)

/-- The first comma-separated field of a config entry
(`strings.Split(ip, ",")[0]`). -/
def firstField (ip : String) : String := (goSplit ip).headD ""

/-- `RoundRobinBalance.Add`: append the first parameter to the pool; an
empty parameter list is an error and leaves the pool unchanged. -/
def RoundRobinBalance.Add (r : RoundRobinBalance) (params : List String) :
    RoundRobinBalance × Option String :=
  if params.length = 0 then (r, some "params len 0")
  else ({ r with rss := r.rss ++ [params.headD ""] }, none)

/-- `RoundRobinBalance.Update` (the synchronized variant, the one with
the mutex): rebuild `rss` from the first field of every entry of the
attached source's `GetConf()` snapshot and reset the cursor to 0. -/
def RoundRobinBalance.Update (r : RoundRobinBalance) (conf : List String) : RoundRobinBalance :=
  let newRss := conf.foldl (fun acc ip =>
    let parts := goSplit ip
    if 0 < parts.length then acc ++ [parts.headD ""] else acc) []
  { r with rss := newRss, curIndex := 0 }

/-- The earlier, unsynchronized copy of `RoundRobinBalance.Update`:
clears `rss` and re-`Add`s `strings.Split(ip, ",")...` for every snapshot
entry; the cursor is left untouched. -/
def RoundRobinBalance.UpdateLegacy (r : RoundRobinBalance) (conf : List String) :
    RoundRobinBalance :=
  conf.foldl (fun acc ip => (acc.Add (goSplit ip)).1) { r with rss := [] }

theorem RoundRobinBalance.update_fold (conf : List String) (acc : List String) :
    conf.foldl (fun acc ip =>
      let parts := goSplit ip
      if 0 < parts.length then acc ++ [parts.headD ""] else acc) acc
    = acc ++ conf.map firstField := by
  induction conf generalizing acc with
  | nil => simp
  | cons ip rest ih =>
    have hpos : 0 < (goSplit ip).length := List.length_pos.mpr (goSplit_ne_nil ip)
    simp only [List.foldl_cons, List.map_cons, if_pos hpos]
    rw [ih]
    simp [firstField]

theorem RoundRobinBalance.update_rss (r : RoundRobinBalance) (conf : List String) :
    (r.Update conf).rss = conf.map firstField ∧ (r.Update conf).curIndex = 0 := by
  constructor
  · show conf.foldl _ [] = _
    rw [RoundRobinBalance.update_fold conf []]
    simp
  · rfl

theorem RoundRobinBalance.updateLegacy_fold (conf : List String) (r : RoundRobinBalance) :
    conf.foldl (fun acc ip => (acc.Add (goSplit ip)).1) r
    = { r with rss := r.rss ++ conf.map firstField } := by
  induction conf generalizing r with
  | nil => simp
  | cons ip rest ih =>
    show List.foldl (fun acc ip => (acc.Add (goSplit ip)).1) ((r.Add (goSplit ip)).1) rest = _
    have hne : ¬ (goSplit ip).length = 0 := by
      have := List.length_pos.mpr (goSplit_ne_nil ip)
      omega
    have hadd : (r.Add (goSplit ip)).1 = { r with rss := r.rss ++ [(goSplit ip).headD ""] } := by
      unfold RoundRobinBalance.Add
      rw [if_neg hne]
    rw [hadd, ih]
    simp [firstField]

theorem RoundRobinBalance.updateLegacy_rss (r : RoundRobinBalance) (conf : List String) :
    (r.UpdateLegacy conf).rss = conf.map firstField
    ∧ (r.UpdateLegacy conf).curIndex = r.curIndex := by
  unfold UpdateLegacy
  rw [RoundRobinBalance.updateLegacy_fold conf { r with rss := [] }]
  exact ⟨by simp, rfl⟩

/-- A weighted node: address, nominal `weight`, `effectiveWeight`
(initialised to `weight`) and the smooth-selection accumulator
`currentWeight` (initialised to 0). -/
structure WeightNode where
  addr : String
  weight : Int
  effectiveWeight : Int
  currentWeight : Int
deriving Repr, DecidableEq

/-- The `WeightRoundRobinBalance` struct; its `curIndex` field is unused
by `Next` and `Update` but kept for fidelity. -/
structure WeightRoundRobinBalance where
  curIndex : Nat
  rss : List WeightNode
deriving Repr, DecidableEq

/-- Go `strconv.ParseInt(s, 10, 64)`: an optional sign, at least one
decimal digit, and a signed 64-bit range check; `none` models a non-nil
error. -/
def goParseInt (s : String) : Option Int :=
  let neg := s.startsWith "-"
  let digits := if s.startsWith "-" || s.startsWith "+" then s.toList.drop 1 else s.toList
  if digits = [] then none
  else if digits.all (fun c => c.isDigit) then
    let mag : Nat := digits.foldl (fun a c => a * 10 + (c.toNat - 48)) 0
    let v : Int := if neg then -(mag : Int) else (mag : Int)
    if v < -(2 ^ 63) ∨ v > 2 ^ 63 - 1 then none else some v
  else none

/-- `WeightRoundRobinBalance.Add`: requires exactly two parameters
(address and weight string); the weight must parse as an integer; on
success a node with `effectiveWeight = weight` and `currentWeight = 0`
is appended. -/
def WeightRoundRobinBalance.Add (r : WeightRoundRobinBalance) (params : List String) :
    WeightRoundRobinBalance × Option String :=
  if params.length ≠ 2 then (r, some "param len need 2")
  else
    match goParseInt (params.getD 1 "") with
    | none => (r, some "parse error")
    | some v => ({ r with rss := r.rss ++ [⟨params.getD 0 "", v, v, 0⟩] }, none)

/-- `WeightRoundRobinBalance.addInternal`: like `Add` but taking the
address and weight string directly (used by `Update`, which already holds
the lock). -/
def WeightRoundRobinBalance.addInternal (r : WeightRoundRobinBalance)
    (addr weightStr : String) : WeightRoundRobinBalance × Option String :=
  match goParseInt weightStr with
  | none => (r, some "parse error")
  | some v => ({ r with rss := r.rss ++ [⟨addr, v, v, 0⟩] }, none)

/-- The body of the `Update` rebuild loop: entries that split on ',' into
at least two fields are handed to `addInternal` (whose error is
discarded); other entries are skipped. -/
def wrrUpdateStep (acc : WeightRoundRobinBalance) (ip : String) : WeightRoundRobinBalance :=
  let parts := goSplit ip
  if 2 ≤ parts.length then (acc.addInternal (parts.getD 0 "") (parts.getD 1 "")).1
  else acc

/-- `WeightRoundRobinBalance.Update`: clears the node list and re-adds,
via `addInternal`, every snapshot entry that splits on ',' into at least
two fields (address and weight); `addInternal` errors are discarded. -/
def WeightRoundRobinBalance.Update (r : WeightRoundRobinBalance) (conf : List String) :
    WeightRoundRobinBalance :=
  conf.foldl wrrUpdateStep { r with rss := [] }

/-- The body of the `Next` loop applied to one node (lines 58-66): add
`effectiveWeight` to `currentWeight`, then increment `effectiveWeight`
when it is below the nominal `weight`. -/
def WeightNode.pass (w : WeightNode) : WeightNode :=
  let w1 := { w with currentWeight := w.currentWeight + w.effectiveWeight }
  if w1.effectiveWeight < w1.weight then { w1 with effectiveWeight := w1.effectiveWeight + 1 }
  else w1

/-- The selection pass of `WeightRoundRobinBalance.Next`, translated from
its `for` loop: processes the remaining nodes, threading the running
`total`, the already-updated nodes (in reverse), the index and updated
`currentWeight` of the best node so far, and the position counter. -/
def wrrPass : List WeightNode → Int → List WeightNode → Option (Nat × Int) → Nat →
    Int × List WeightNode × Option (Nat × Int)
  | [], total, acc, best, _ => (total, acc.reverse, best)
  | w :: rest, total, acc, best, i =>
    let w1 := w.pass
    let best1 := match best with
      | none => some (i, w1.currentWeight)
      | some (bi, bcw) =>
        if w1.currentWeight > bcw then some (i, w1.currentWeight) else some (bi, bcw)
    wrrPass rest (total + w.effectiveWeight) (w1 :: acc) best1 (i + 1)

/-- `WeightRoundRobinBalance.Next`: run the pass over the pool; on the
empty pool return `""`; otherwise subtract the accumulated `total` from
the best node's `currentWeight` and return its address. -/
def WeightRoundRobinBalance.Next (r : WeightRoundRobinBalance) :
    String × WeightRoundRobinBalance :=
  if r.rss.length = 0 then ("", r)
  else
    match wrrPass r.rss 0 [] none 0 with
    | (_, updated, none) => ("", { r with rss := updated })
    | (total, updated, some (bi, _)) =>
      let bestNode := updated.getD bi ⟨"", 0, 0, 0⟩
      (bestNode.addr,
        { r with rss := (updated.set bi
            { bestNode with currentWeight := bestNode.currentWeight - total }) })

/-- `WeightRoundRobinBalance.Get`: returns `Next()` paired with a nil
error. -/
def WeightRoundRobinBalance.Get (r : WeightRoundRobinBalance) (key : String) :
    (String × Option String) × WeightRoundRobinBalance :=
  ((r.Next.1, none), r.Next.2)

/-- The `currentWeight` stored at position `j` of a node list (a zero
node for out-of-range positions). -/
def cwAt (l : List WeightNode) (j : Nat) : Int :=
  (l.getD j ⟨"", 0, 0, 0⟩).currentWeight

/-- `b` is a position of the largest value of `f` on `[0, n)`, the
earliest such position winning ties. -/
def IsFirstMax (f : Nat → Int) (n b : Nat) : Prop :=
  b < n ∧ (∀ j, j < n → f j ≤ f b) ∧ ∀ j, j < b → f j < f b

/-- Spec-side single-node update, stated from the claim's words (b) and
(c): add the node's `effectiveWeight` to its `currentWeight`, and
increment `effectiveWeight` by 1 whenever `effectiveWeight < weight`. -/
def specNodeStep (w : WeightNode) : WeightNode :=
  { w with
    currentWeight := w.currentWeight + w.effectiveWeight,
    effectiveWeight :=
      if w.effectiveWeight < w.weight then w.effectiveWeight + 1 else w.effectiveWeight }

theorem WeightNode.pass_eq_spec (w : WeightNode) : w.pass = specNodeStep w := by
  unfold WeightNode.pass specNodeStep
  by_cases h : w.effectiveWeight < w.weight
  · rw [if_pos h, if_pos h]
  · rw [if_neg h, if_neg h]

/-- The tracked best node is sound for the nodes seen so far: `none`
only for no nodes, otherwise the first position of the maximal updated
`currentWeight` together with that value. -/
def BestSound (out : List WeightNode) (best : Option (Nat × Int)) : Prop :=
  match best with
  | none => out = []
  | some (bi, bcw) => IsFirstMax (cwAt out) out.length bi ∧ bcw = cwAt out bi

theorem cwAt_append_lt (l l2 : List WeightNode) (j : Nat) (hj : j < l.length) :
    cwAt (l ++ l2) j = cwAt l j := by
  unfold cwAt
  rw [List.getD_append l l2 _ j hj]

theorem cwAt_append_self (l : List WeightNode) (w1 : WeightNode) :
    cwAt (l ++ [w1]) l.length = w1.currentWeight := by
  unfold cwAt
  rw [List.getD_append_right l [w1] _ l.length (Nat.le_refl _)]
  simp

theorem BestSound_snoc_none (l : List WeightNode) (w1 : WeightNode)
    (h : BestSound l none) :
    BestSound (l ++ [w1]) (some (l.length, w1.currentWeight)) := by
  have hl : l = [] := h
  subst hl
  show IsFirstMax (cwAt ([] ++ [w1])) ([] ++ [w1] : List WeightNode).length 0 ∧ _
  refine ⟨⟨?_, ?_, ?_⟩, rfl⟩
  · simp
  · intro j hj
    simp only [List.nil_append, List.length_singleton] at hj
    have hj0 : j = 0 := by omega
    subst hj0
    exact le_refl _
  · intro j hj
    exact absurd hj (Nat.not_lt_zero j)

theorem BestSound_snoc_some (l : List WeightNode) (w1 : WeightNode) (bi : Nat) (bcw : Int)
    (h : BestSound l (some (bi, bcw))) :
    BestSound (l ++ [w1])
      (if w1.currentWeight > bcw then some (l.length, w1.currentWeight)
       else some (bi, bcw)) := by
  obtain ⟨⟨hbi, hmax, hstrict⟩, hval⟩ := h
  by_cases hgt : w1.currentWeight > bcw
  · rw [if_pos hgt]
    show IsFirstMax _ _ _ ∧ _
    refine ⟨⟨?_, ?_, ?_⟩, ?_⟩
    · simp
    · intro j hj
      rw [List.length_append, List.length_singleton] at hj
      rcases Nat.lt_or_ge j l.length with hlt | hge
      · rw [cwAt_append_lt l [w1] j hlt, cwAt_append_self l w1]
        have := hmax j hlt
        rw [← hval] at this
        omega
      · have hj' : j = l.length := by omega
        subst hj'
        exact le_refl _
    · intro j hj
      rw [cwAt_append_lt l [w1] j hj, cwAt_append_self l w1]
      have := hmax j hj
      rw [← hval] at this
      omega
    · rw [cwAt_append_self l w1]
  · rw [if_neg hgt]
    show IsFirstMax _ _ _ ∧ _
    refine ⟨⟨?_, ?_, ?_⟩, ?_⟩
    · rw [List.length_append, List.length_singleton]
      omega
    · intro j hj
      rw [List.length_append, List.length_singleton] at hj
      rw [cwAt_append_lt l [w1] bi hbi]
      rcases Nat.lt_or_ge j l.length with hlt | hge
      · rw [cwAt_append_lt l [w1] j hlt]
        exact hmax j hlt
      · have hj' : j = l.length := by omega
        subst hj'
        rw [cwAt_append_self l w1, ← hval]
        omega
    · intro j hj
      have hjl : j < l.length := by omega
      rw [cwAt_append_lt l [w1] j hjl, cwAt_append_lt l [w1] bi hbi]
      exact hstrict j hj
    · rw [cwAt_append_lt l [w1] bi hbi]
      exact hval

theorem wrrPass_spec (rest : List WeightNode) :
    ∀ (total : Int) (acc : List WeightNode) (best : Option (Nat × Int)),
    BestSound acc.reverse best →
    (wrrPass rest total acc best acc.length).1
        = total + (rest.map (fun w => w.effectiveWeight)).sum
    ∧ (wrrPass rest total acc best acc.length).2.1
        = acc.reverse ++ rest.map WeightNode.pass
    ∧ BestSound (acc.reverse ++ rest.map WeightNode.pass)
        (wrrPass rest total acc best acc.length).2.2 := by
  induction rest with
  | nil =>
    intro total acc best h
    refine ⟨by simp [wrrPass], by simp [wrrPass], ?_⟩
    show BestSound (acc.reverse ++ []) best
    simpa using h
  | cons w rest ih =>
    intro total acc best h
    rcases best with _ | ⟨bi, bcw⟩
    · have h2 := BestSound_snoc_none acc.reverse w.pass h
      rw [List.length_reverse] at h2
      have h3 : BestSound (w.pass :: acc).reverse (some (acc.length, w.pass.currentWeight)) := by
        rw [List.reverse_cons]
        exact h2
      have ihres := ih (total + w.effectiveWeight) (w.pass :: acc)
        (some (acc.length, w.pass.currentWeight)) h3
      simp only [List.length_cons, List.reverse_cons] at ihres
      obtain ⟨ih1, ih2, ih3⟩ := ihres
      refine ⟨?_, ?_, ?_⟩
      · show (wrrPass rest (total + w.effectiveWeight) (w.pass :: acc)
            (some (acc.length, w.pass.currentWeight)) (acc.length + 1)).1 = _
        rw [ih1, List.map_cons, List.sum_cons]
        omega
      · show (wrrPass rest (total + w.effectiveWeight) (w.pass :: acc)
            (some (acc.length, w.pass.currentWeight)) (acc.length + 1)).2.1 = _
        rw [ih2, List.map_cons, List.append_assoc]
        rfl
      · show BestSound (acc.reverse ++ (w :: rest).map WeightNode.pass)
            (wrrPass rest (total + w.effectiveWeight) (w.pass :: acc)
              (some (acc.length, w.pass.currentWeight)) (acc.length + 1)).2.2
        rw [List.map_cons]
        have : acc.reverse ++ w.pass :: rest.map WeightNode.pass
            = acc.reverse ++ [w.pass] ++ rest.map WeightNode.pass := by
          rw [List.append_assoc]
          rfl
        rw [this]
        exact ih3
    · have h2 := BestSound_snoc_some acc.reverse w.pass bi bcw h
      rw [List.length_reverse] at h2
      have h3 : BestSound (w.pass :: acc).reverse
          (if w.pass.currentWeight > bcw then some (acc.length, w.pass.currentWeight)
           else some (bi, bcw)) := by
        rw [List.reverse_cons]
        exact h2
      have ihres := ih (total + w.effectiveWeight) (w.pass :: acc)
        (if w.pass.currentWeight > bcw then some (acc.length, w.pass.currentWeight)
         else some (bi, bcw)) h3
      simp only [List.length_cons, List.reverse_cons] at ihres
      obtain ⟨ih1, ih2, ih3⟩ := ihres
      refine ⟨?_, ?_, ?_⟩
      · show (wrrPass rest (total + w.effectiveWeight) (w.pass :: acc)
            (if w.pass.currentWeight > bcw then some (acc.length, w.pass.currentWeight)
             else some (bi, bcw)) (acc.length + 1)).1 = _
        rw [ih1, List.map_cons, List.sum_cons]
        omega
      · show (wrrPass rest (total + w.effectiveWeight) (w.pass :: acc)
            (if w.pass.currentWeight > bcw then some (acc.length, w.pass.currentWeight)
             else some (bi, bcw)) (acc.length + 1)).2.1 = _
        rw [ih2, List.map_cons, List.append_assoc]
        rfl
      · show BestSound (acc.reverse ++ (w :: rest).map WeightNode.pass)
            (wrrPass rest (total + w.effectiveWeight) (w.pass :: acc)
              (if w.pass.currentWeight > bcw then some (acc.length, w.pass.currentWeight)
               else some (bi, bcw)) (acc.length + 1)).2.2
        rw [List.map_cons]
        have : acc.reverse ++ w.pass :: rest.map WeightNode.pass
            = acc.reverse ++ [w.pass] ++ rest.map WeightNode.pass := by
          rw [List.append_assoc]
          rfl
        rw [this]
        exact ih3

theorem wrrNext_char (r : WeightRoundRobinBalance) (h : r.rss ≠ []) :
    ∃ b, IsFirstMax (cwAt (r.rss.map specNodeStep)) r.rss.length b
    ∧ r.Next.1 = ((r.rss.map specNodeStep).getD b ⟨"", 0, 0, 0⟩).addr
    ∧ r.Next.2.rss = (r.rss.map specNodeStep).set b
        { (r.rss.map specNodeStep).getD b ⟨"", 0, 0, 0⟩ with
            currentWeight := cwAt (r.rss.map specNodeStep) b
              - (r.rss.map (fun w => w.effectiveWeight)).sum } := by
  have hmapeq : r.rss.map WeightNode.pass = r.rss.map specNodeStep :=
    List.map_congr_left (fun w _ => w.pass_eq_spec)
  have hs := wrrPass_spec r.rss 0 [] none (show BestSound [].reverse none from rfl)
  simp only [List.length_nil, List.nil_append, List.reverse_nil] at hs
  obtain ⟨h1, h2, h3⟩ := hs
  rw [zero_add] at h1
  rcases hb : (wrrPass r.rss 0 [] none 0).2.2 with _ | ⟨bi, bcw⟩
  · rw [hb] at h3
    have hnil : r.rss.map WeightNode.pass = [] := h3
    exact absurd (List.map_eq_nil.mp hnil) h
  · rw [hb] at h3
    obtain ⟨hfm, hcw⟩ := h3
    have hlen : ¬ r.rss.length = 0 := fun h0 => h (List.length_eq_zero.mp h0)
    have hw : wrrPass r.rss 0 [] none 0
        = ((r.rss.map (fun w => w.effectiveWeight)).sum,
           r.rss.map WeightNode.pass, some (bi, bcw)) := by
      apply Prod.ext h1
      apply Prod.ext h2 hb
    have hnext : r.Next = (((r.rss.map WeightNode.pass).getD bi ⟨"", 0, 0, 0⟩).addr,
        { r with rss := ((r.rss.map WeightNode.pass).set bi
            { (r.rss.map WeightNode.pass).getD bi ⟨"", 0, 0, 0⟩ with
                currentWeight :=
                  ((r.rss.map WeightNode.pass).getD bi ⟨"", 0, 0, 0⟩).currentWeight
                    - (r.rss.map (fun w => w.effectiveWeight)).sum }) }) := by
      unfold WeightRoundRobinBalance.Next
      rw [if_neg hlen, hw]
    refine ⟨bi, ?_, ?_, ?_⟩
    · rw [hmapeq] at hfm
      simpa using hfm
    · rw [hnext, hmapeq]
    · rw [hnext, hmapeq]
      rfl

/-- C1: on a non-empty weighted pool, `Next` performs one pass that maps
every node through the spec's per-node update (`specNodeStep`: add
`effectiveWeight` to `currentWeight`, then increment `effectiveWeight`
when below `weight`), selects the position `b` of the largest updated
`currentWeight` with the earliest position winning ties, subtracts the
total of the original effective weights from node `b`'s `currentWeight`,
and returns node `b`'s address. -/
theorem wrr_next_smooth (r : WeightRoundRobinBalance) (h : r.rss ≠ []) :
    ∃ b, IsFirstMax (cwAt (r.rss.map specNodeStep)) r.rss.length b
    ∧ r.Next.1 = ((r.rss.map specNodeStep).getD b ⟨"", 0, 0, 0⟩).addr
    ∧ r.Next.2.rss = (r.rss.map specNodeStep).set b
        { (r.rss.map specNodeStep).getD b ⟨"", 0, 0, 0⟩ with
            currentWeight := cwAt (r.rss.map specNodeStep) b
              - (r.rss.map (fun w => w.effectiveWeight)).sum } :=
  wrrNext_char r h

/-- The pool used by the repository's weighted round robin test. -/
def wrrTestPool : WeightRoundRobinBalance :=
  ⟨0, [⟨"a", 4, 4, 0⟩, ⟨"b", 3, 3, 0⟩, ⟨"c", 2, 2, 0⟩, ⟨"d", 1, 1, 0⟩]⟩

theorem wrr_next_smooth_witness :
    wrrTestPool.rss ≠ []
    ∧ ∃ b, IsFirstMax (cwAt (wrrTestPool.rss.map specNodeStep)) wrrTestPool.rss.length b
    ∧ wrrTestPool.Next.1 = ((wrrTestPool.rss.map specNodeStep).getD b ⟨"", 0, 0, 0⟩).addr
    ∧ wrrTestPool.Next.2.rss = (wrrTestPool.rss.map specNodeStep).set b
        { (wrrTestPool.rss.map specNodeStep).getD b ⟨"", 0, 0, 0⟩ with
            currentWeight := cwAt (wrrTestPool.rss.map specNodeStep) b
              - (wrrTestPool.rss.map (fun w => w.effectiveWeight)).sum } :=
  ⟨by decide, wrr_next_smooth wrrTestPool (by decide)⟩

theorem wrrNext_mem (r : WeightRoundRobinBalance) (h : r.rss ≠ []) :
    ∃ n ∈ r.rss, r.Next.1 = n.addr := by
  obtain ⟨b, hfm, haddr, _⟩ := wrrNext_char r h
  obtain ⟨hb, _, _⟩ := hfm
  refine ⟨r.rss.get ⟨b, hb⟩, List.get_mem _ _ hb, ?_⟩
  have hbl : b < (r.rss.map specNodeStep).length := by simpa using hb
  rw [haddr, List.getD_eq_getElem _ _ hbl, List.getElem_map]
  rfl

theorem rrNext_mem (r : RoundRobinBalance) (h : r.rss ≠ []) :
    r.Next.1 ∈ r.rss := by
  have hpos : 0 < r.rss.length := List.length_pos.mpr h
  rw [RoundRobinBalance.next_of_pos r hpos]
  have hm : (r.curIndex + 1) % r.rss.length < r.rss.length := Nat.mod_lt _ hpos
  show r.rss.getD ((r.curIndex + 1) % r.rss.length) "" ∈ r.rss
  rw [List.getD_eq_getElem r.rss "" hm]
  exact List.getElem_mem hm

/-- The node, if any, that one snapshot entry contributes to the rebuilt
weighted pool: present exactly when the entry has at least two
comma-separated fields and its second field parses as an integer. -/
def entryNode (ip : String) : Option WeightNode :=
  let parts := goSplit ip
  if 2 ≤ parts.length then
    match goParseInt (parts.getD 1 "") with
    | none => none
    | some v => some ⟨parts.getD 0 "", v, v, 0⟩
  else none

theorem wrrUpdateStep_eq (acc : WeightRoundRobinBalance) (ip : String) :
    wrrUpdateStep acc ip
      = match entryNode ip with
        | none => acc
        | some n => { acc with rss := acc.rss ++ [n] } := by
  unfold wrrUpdateStep entryNode WeightRoundRobinBalance.addInternal
  by_cases hl : 2 ≤ (goSplit ip).length
  · simp only [if_pos hl]
    rcases hp : goParseInt ((goSplit ip).getD 1 "") with _ | v <;> rfl
  · simp only [if_neg hl]

theorem WeightRoundRobinBalance.updateFold (conf : List String) :
    ∀ (acc : WeightRoundRobinBalance),
    conf.foldl wrrUpdateStep acc
      = { acc with rss := acc.rss ++ conf.filterMap entryNode } := by
  induction conf with
  | nil =>
    intro acc
    simp
  | cons ip rest ih =>
    intro acc
    rw [List.foldl_cons, List.filterMap_cons, wrrUpdateStep_eq]
    rcases he : entryNode ip with _ | n
    · exact ih acc
    · rw [ih { acc with rss := acc.rss ++ [n] }]
      simp

theorem WeightRoundRobinBalance.updateRss (r : WeightRoundRobinBalance)
    (conf : List String) :
    (r.Update conf).rss = conf.filterMap entryNode
    ∧ (r.Update conf).curIndex = r.curIndex := by
  unfold WeightRoundRobinBalance.Update
  rw [WeightRoundRobinBalance.updateFold conf { r with rss := [] }]
  exact ⟨by simp, rfl⟩

theorem getD_zero_eq_headD (l : List String) (d : String) : l.getD 0 d = l.headD d := by
  cases l <;> rfl

/-- The `ConsistentHashBanlance` struct: replica count, pluggable hash
function, the sorted ring positions `keys`, and the position-to-address
map `hashMap` (a Go map lookup of a missing key returns `""`). -/
structure ConsistentHashBanlance where
  replicas : Nat
  hash : String → Nat
  keys : List Nat
  hashMap : Nat → String

/-- `NewConsistentHashBanlance`: an empty ring with the given replica
count and hash function. -/
def NewConsistentHashBanlance (replicas : Nat) (fn : String → Nat) : ConsistentHashBanlance :=
  { replicas := replicas, hash := fn, keys := [], hashMap := fun _ => "" }

/-- `ConsistentHashBanlance.IsEmpty`: the ring has no positions. -/
def ConsistentHashBanlance.IsEmpty (c : ConsistentHashBanlance) : Bool :=
  c.keys.length = 0

/-- `ConsistentHashBanlance.Add`: empty params return a nil error with no
change; otherwise, for each `i < replicas`, append `hash(itoa(i)+addr)`
to the ring, map it to `addr`, and finally re-sort the ring. -/
def ConsistentHashBanlance.Add (c : ConsistentHashBanlance) (params : List String) :
    ConsistentHashBanlance :=
  if params.length = 0 then c
  else
    let addr := params.headD ""
    let newHashes := (List.range c.replicas).map (fun i => c.hash (toString i ++ addr))
    { c with
      keys := (c.keys ++ newHashes).insertionSort (· ≤ ·),
      hashMap := fun h => if h ∈ newHashes then addr else c.hashMap h }

/-- The loop of Go `sort.Search`: binary search on `[i, j)` for the
least index satisfying `f` (for monotone `f`), returning `j` when none
does. -/
def searchLoop (f : Nat → Bool) (i j : Nat) : Nat :=
  if h : i < j then
    let m := (i + j) / 2
    if f m then searchLoop f i m else searchLoop f (m + 1) j
  else i
termination_by j - i
decreasing_by
  · omega
  · omega

/-- Go `sort.Search(n, f)`. -/
def sortSearch (n : Nat) (f : Nat → Bool) : Nat := searchLoop f 0 n

/-- `ConsistentHashBanlance.Get`: an error on the empty ring; otherwise
binary-search the sorted ring for the first position `≥ hash(key)`,
wrapping to index 0 when the search runs off the end, and return the
mapped address with a nil error. -/
def ConsistentHashBanlance.Get (c : ConsistentHashBanlance) (key : String) :
    String × Option String :=
  if c.IsEmpty then ("", some "node is Empty!")
  else
    (c.hashMap (c.keys.getD
      (if sortSearch c.keys.length (fun i => decide (c.hash key ≤ c.keys.getD i 0))
            = c.keys.length
       then 0
       else sortSearch c.keys.length (fun i => decide (c.hash key ≤ c.keys.getD i 0))) 0),
     none)

theorem searchLoop_spec (f : Nat → Bool) (n : Nat)
    (mono : ∀ a b, a ≤ b → b < n → f a = true → f b = true) :
    ∀ (d i j : Nat), j - i ≤ d → i ≤ j → j ≤ n →
    i ≤ searchLoop f i j ∧ searchLoop f i j ≤ j
    ∧ (∀ k, i ≤ k → k < searchLoop f i j → f k = false)
    ∧ (searchLoop f i j < j → f (searchLoop f i j) = true) := by
  intro d
  induction d with
  | zero =>
    intro i j hd hij hjn
    have hji : j = i := by omega
    subst hji
    rw [searchLoop, dif_neg (by omega)]
    refine ⟨le_refl _, le_refl _, ?_, ?_⟩
    · intro k hk hk2
      exact absurd hk2 (by omega)
    · intro hlt2
      exact absurd hlt2 (by omega)
  | succ d ih =>
    intro i j hd hij hjn
    by_cases hlt : i < j
    · rw [searchLoop, dif_pos hlt]
      by_cases hf : f ((i + j) / 2) = true
      · rw [if_pos hf]
        obtain ⟨h1, h2, h3, h4⟩ := ih i ((i + j) / 2) (by omega) (by omega) (by omega)
        refine ⟨h1, by omega, h3, ?_⟩
        intro hlt2
        by_cases hsm : searchLoop f i ((i + j) / 2) < (i + j) / 2
        · exact h4 hsm
        · have heq : searchLoop f i ((i + j) / 2) = (i + j) / 2 := by omega
          rw [heq]
          exact hf
      · rw [if_neg hf]
        obtain ⟨h1, h2, h3, h4⟩ := ih ((i + j) / 2 + 1) j (by omega) (by omega) hjn
        refine ⟨by omega, h2, ?_, h4⟩
        intro k hk hk2
        by_cases hkm : k ≤ (i + j) / 2
        · by_cases hfk : f k = true
          · exact absurd (mono k ((i + j) / 2) hkm (by omega) hfk) hf
          · simpa using hfk
        · exact h3 k (by omega) hk2
    · have hji : j = i := by omega
      subst hji
      rw [searchLoop, dif_neg hlt]
      refine ⟨le_refl _, le_refl _, ?_, ?_⟩
      · intro k hk hk2
        exact absurd hk2 (by omega)
      · intro hlt2
        exact absurd hlt2 (by omega)

theorem sorted_getD_mono (l : List Nat) (hs : l.Sorted (· ≤ ·)) (a b : Nat)
    (hab : a ≤ b) (hb : b < l.length) : l.getD a 0 ≤ l.getD b 0 := by
  rcases Nat.eq_or_lt_of_le hab with heq | hlt
  · subst heq
    exact le_refl _
  · have ha : a < l.length := by omega
    rw [List.getD_eq_getElem l 0 ha, List.getD_eq_getElem l 0 hb]
    exact List.pairwise_iff_getElem.mp hs a b ha hb hlt

/-- C4: with a sorted ring, `Get(key)` fails on the empty ring; on a
non-empty ring it returns the address mapped to the first position
`≥ hash(key)` (every earlier position being smaller), and when every
position is smaller than `hash(key)` it wraps to index 0, whose position
is the smallest position of the ring. -/
theorem ch_get_ring_lookup (c : ConsistentHashBanlance) (key : String)
    (hsorted : c.keys.Sorted (· ≤ ·)) :
    (c.keys = [] → c.Get key = ("", some "node is Empty!"))
    ∧ (c.keys ≠ [] →
        (∃ i, i < c.keys.length
          ∧ c.hash key ≤ c.keys.getD i 0
          ∧ (∀ j, j < i → c.keys.getD j 0 < c.hash key)
          ∧ c.Get key = (c.hashMap (c.keys.getD i 0), none))
        ∨ ((∀ j, j < c.keys.length → c.keys.getD j 0 < c.hash key)
          ∧ (∀ j, j < c.keys.length → c.keys.getD 0 0 ≤ c.keys.getD j 0)
          ∧ c.Get key = (c.hashMap (c.keys.getD 0 0), none))) := by
  constructor
  · intro hnil
    unfold ConsistentHashBanlance.Get ConsistentHashBanlance.IsEmpty
    rw [hnil]
    rfl
  · intro hne
    have hpos : 0 < c.keys.length := List.length_pos.mpr hne
    have hemp : ¬ (c.IsEmpty = true) := by
      unfold ConsistentHashBanlance.IsEmpty
      simp only [decide_eq_true_eq]
      omega
    set f : Nat → Bool := fun i => decide (c.hash key ≤ c.keys.getD i 0) with hfdef
    have mono : ∀ a b, a ≤ b → b < c.keys.length → f a = true → f b = true := by
      intro a b hab hb hfa
      simp only [hfdef, decide_eq_true_eq] at hfa ⊢
      exact le_trans hfa (sorted_getD_mono c.keys hsorted a b hab hb)
    obtain ⟨hge0, hle, hbelow, hhit⟩ :=
      searchLoop_spec f c.keys.length mono c.keys.length 0 c.keys.length
        (by omega) (by omega) (le_refl _)
    have hgeteq : c.Get key = (c.hashMap (c.keys.getD
        (if sortSearch c.keys.length f = c.keys.length then 0
         else sortSearch c.keys.length f) 0), none) := by
      unfold ConsistentHashBanlance.Get
      rw [if_neg hemp]
    by_cases hend : sortSearch c.keys.length f = c.keys.length
    · right
      have hall : ∀ j, j < c.keys.length → c.keys.getD j 0 < c.hash key := by
        intro j hj
        have hfj := hbelow j (by omega) (by
          show j < searchLoop f 0 c.keys.length
          have : sortSearch c.keys.length f = searchLoop f 0 c.keys.length := rfl
          omega)
        simp only [hfdef, decide_eq_false_iff_not] at hfj
        omega
      refine ⟨hall, ?_, ?_⟩
      · intro j hj
        exact sorted_getD_mono c.keys hsorted 0 j (Nat.zero_le j) hj
      · rw [hgeteq, if_pos hend]
    · left
      have hrlt : sortSearch c.keys.length f < c.keys.length := by
        have : sortSearch c.keys.length f = searchLoop f 0 c.keys.length := rfl
        omega
      refine ⟨sortSearch c.keys.length f, hrlt, ?_, ?_, ?_⟩
      · have := hhit hrlt
        simpa only [hfdef, decide_eq_true_eq] using this
      · intro j hj
        have hfj := hbelow j (by omega) hj
        simp only [hfdef, decide_eq_false_iff_not] at hfj
        omega
      · rw [hgeteq, if_neg hend]

/-- A concrete three-position ring used by witnesses. -/
def chTestRing : ConsistentHashBanlance :=
  { replicas := 1, hash := String.length, keys := [10, 20, 30],
    hashMap := fun h => if h = 10 then "A" else if h = 20 then "B" else "C" }

theorem ch_get_ring_lookup_witness :
    chTestRing.keys.Sorted (· ≤ ·)
    ∧ ((chTestRing.keys = [] → chTestRing.Get "k" = ("", some "node is Empty!"))
      ∧ (chTestRing.keys ≠ [] →
          (∃ i, i < chTestRing.keys.length
            ∧ chTestRing.hash "k" ≤ chTestRing.keys.getD i 0
            ∧ (∀ j, j < i → chTestRing.keys.getD j 0 < chTestRing.hash "k")
            ∧ chTestRing.Get "k" = (chTestRing.hashMap (chTestRing.keys.getD i 0), none))
          ∨ ((∀ j, j < chTestRing.keys.length → chTestRing.keys.getD j 0 < chTestRing.hash "k")
            ∧ (∀ j, j < chTestRing.keys.length →
                chTestRing.keys.getD 0 0 ≤ chTestRing.keys.getD j 0)
            ∧ chTestRing.Get "k" = (chTestRing.hashMap (chTestRing.keys.getD 0 0), none)))) :=
  ⟨by decide, ch_get_ring_lookup chTestRing "k" (by decide)⟩

/-- C2 counterexample: `RoundRobinBalance.Get` on an empty pool returns
a nil error next to the empty address, so the error component of the
result is not always non-nil on an empty pool. -/
theorem rr_get_empty_nil_error :
    ((RoundRobinBalance.mk 0 []).Get "key").1.2 = none := rfl

/-- C2 (amended): `Get` on an empty pool never panics or blocks and
returns the empty address; the consistent-hash strategy pairs it with a
non-nil error, while round robin and weighted round robin pair it with a
nil error. -/
theorem empty_pool_get (cur : Nat) (key : String) (w : WeightRoundRobinBalance)
    (ch : ConsistentHashBanlance) (hw : w.rss = []) (hch : ch.keys = []) :
    (RoundRobinBalance.Get ⟨cur, []⟩ key).1 = ("", none)
    ∧ (w.Get key).1 = ("", none)
    ∧ ch.Get key = ("", some "node is Empty!") := by
  refine ⟨rfl, ?_, ?_⟩
  · show ((w.Next.1, none), w.Next.2).1 = ("", none)
    unfold WeightRoundRobinBalance.Next
    rw [hw]
    rfl
  · unfold ConsistentHashBanlance.Get ConsistentHashBanlance.IsEmpty
    rw [hch]
    rfl

theorem empty_pool_get_witness :
    (RoundRobinBalance.Get ⟨0, []⟩ "k").1 = ("", none)
    ∧ ((WeightRoundRobinBalance.mk 0 []).Get "k").1 = ("", none)
    ∧ (NewConsistentHashBanlance 10 String.length).Get "k"
        = ("", some "node is Empty!") :=
  empty_pool_get 0 "k" ⟨0, []⟩ (NewConsistentHashBanlance 10 String.length) rfl rfl

/-- C6 counterexample: adding the same address twice (replica count 1,
hash = string length) gives a ring of two equal positions: the ring
length is `2`, not `replicas ×` the number of distinct addresses
(`1 × 1`), and the ring holds duplicate positions. -/
theorem ch_ring_duplicate_positions :
    (((NewConsistentHashBanlance 1 String.length).Add ["a"]).Add ["a"]).keys = [2, 2]
    ∧ ¬ (((NewConsistentHashBanlance 1 String.length).Add ["a"]).Add ["a"]).keys.Nodup
    ∧ (((NewConsistentHashBanlance 1 String.length).Add ["a"]).Add ["a"]).keys.length
        ≠ 1 * 1 := by
  refine ⟨?_, ?_, ?_⟩ <;> decide

theorem chAdd_replicas (c : ConsistentHashBanlance) (p : List String) :
    (c.Add p).replicas = c.replicas := by
  unfold ConsistentHashBanlance.Add
  split <;> rfl

theorem chAdd_length (c : ConsistentHashBanlance) (p : List String) :
    (c.Add p).keys.length
      = c.keys.length + (if p.length = 0 then 0 else c.replicas) := by
  unfold ConsistentHashBanlance.Add
  by_cases hp : p.length = 0
  · rw [if_pos hp, if_pos hp]
    rfl
  · rw [if_neg hp, if_neg hp]
    show ((c.keys ++ _).insertionSort (· ≤ ·)).length = _
    rw [(List.perm_insertionSort (· ≤ ·) _).length_eq]
    simp

theorem chAdd_sorted (c : ConsistentHashBanlance) (p : List String)
    (hc : c.keys.Sorted (· ≤ ·)) : (c.Add p).keys.Sorted (· ≤ ·) := by
  unfold ConsistentHashBanlance.Add
  by_cases hp : p.length = 0
  · rw [if_pos hp]
    exact hc
  · rw [if_neg hp]
    exact List.sorted_insertionSort (· ≤ ·) _

/-- A sequence of `Add` calls applied in order. -/
def chAddSeq (c : ConsistentHashBanlance) (calls : List (List String)) :
    ConsistentHashBanlance :=
  calls.foldl ConsistentHashBanlance.Add c

theorem chAddSeq_invariant (calls : List (List String)) :
    ∀ (c : ConsistentHashBanlance), c.keys.Sorted (· ≤ ·) →
    (chAddSeq c calls).replicas = c.replicas
    ∧ (chAddSeq c calls).keys.length
        = c.keys.length + c.replicas * (calls.filter (fun p => !p.isEmpty)).length
    ∧ (chAddSeq c calls).keys.Sorted (· ≤ ·) := by
  induction calls with
  | nil =>
    intro c hc
    exact ⟨rfl, by simp [chAddSeq], hc⟩
  | cons p rest ih =>
    intro c hc
    rw [show chAddSeq c (p :: rest) = chAddSeq (c.Add p) rest from rfl]
    obtain ⟨ih1, ih2, ih3⟩ := ih (c.Add p) (chAdd_sorted c p hc)
    refine ⟨by rw [ih1, chAdd_replicas], ?_, ih3⟩
    rw [ih2, chAdd_replicas, chAdd_length]
    by_cases hp : p.length = 0
    · have hpe : p.isEmpty = true := by
        cases p
        · rfl
        · simp at hp
      rw [if_pos hp]
      simp [List.filter_cons, hpe]
    · have hpe : p.isEmpty = false := by
        cases p
        · simp at hp
        · rfl
      rw [if_neg hp]
      rw [List.filter_cons]
      simp only [hpe, Bool.not_false, if_pos]
      rw [List.length_cons]
      ring

/-- C6 (amended): starting from a fresh balance, after any sequence of
`Add` calls the ring length is `replicas ×` the number of calls that
carried a non-empty parameter list — repeated addresses counted every
time they are added — and the ring is sorted ascending after every
mutation; duplicate ring positions are possible (adding the same address
twice, or hash collisions), see the counterexample. -/
theorem ch_ring_invariant (replicas : Nat) (fn : String → Nat)
    (calls : List (List String)) :
    (chAddSeq (NewConsistentHashBanlance replicas fn) calls).keys.length
        = replicas * (calls.filter (fun p => !p.isEmpty)).length
    ∧ (chAddSeq (NewConsistentHashBanlance replicas fn) calls).keys.Sorted (· ≤ ·) := by
  obtain ⟨h1, h2, h3⟩ := chAddSeq_invariant calls (NewConsistentHashBanlance replicas fn)
    (by show List.Sorted _ []; simp)
  exact ⟨by simpa [NewConsistentHashBanlance] using h2, h3⟩

/-- Lock-aware consistent-hash state: the balance together with whether
its `sync.RWMutex` is write-held.  Taking the non-reentrant mutex while
it is already held blocks forever, modelled as `none`. -/
structure CHLocked where
  locked : Bool
  bal : ConsistentHashBanlance

/-- `ConsistentHashBanlance.Add` with its locking: empty params return
before touching the mutex; otherwise `mux.Lock()` blocks forever
(`none`) when the mutex is already held, else the body runs and the
deferred `Unlock()` restores the mutex to its entry state. -/
def CHLocked.AddLocked (st : CHLocked) (params : List String) : Option CHLocked :=
  if params.length = 0 then some st
  else if st.locked then none
  else some { st with bal := st.bal.Add params }

/-- One entry of the `Update` rebuild loop: a deadlocked computation
stays deadlocked, otherwise `Add` runs under the already-held mutex. -/
def chUpdateFoldStep (acc : Option CHLocked) (ip : String) : Option CHLocked :=
  match acc with
  | none => none
  | some s => s.AddLocked (goSplit ip)

/-- `ConsistentHashBanlance.Update` with its locking: takes the mutex,
clears the ring, then calls `Add` — which itself takes the same mutex —
for every snapshot entry; the deferred `Unlock()` runs only if the body
returns. -/
def CHLocked.UpdateLocked (st : CHLocked) (conf : List String) : Option CHLocked :=
  if st.locked then none
  else
    match conf.foldl chUpdateFoldStep
      (some { locked := true,
              bal := { st.bal with keys := [], hashMap := fun _ => "" } }) with
    | none => none
    | some s => some { s with locked := false }

theorem updateLocked_fold_none (conf : List String) :
    conf.foldl chUpdateFoldStep none = none := by
  induction conf with
  | nil => rfl
  | cons ip rest ih => exact ih

/-- C7 (code bug): `Update` holds the strategy's non-reentrant mutex for
its whole body and calls `Add`, which tries to take the same mutex, so
the rebuild never returns for any non-empty snapshot; only the empty
snapshot completes. -/
theorem ch_update_deadlocks (st : CHLocked) (conf : List String)
    (hfree : st.locked = false) (hconf : conf ≠ []) :
    st.UpdateLocked conf = none ∧ (st.UpdateLocked []).isSome = true := by
  constructor
  · unfold CHLocked.UpdateLocked
    rw [hfree, if_neg (show ¬ (false = true) by simp)]
    rcases conf with _ | ⟨ip, rest⟩
    · exact absurd rfl hconf
    · rw [List.foldl_cons]
      have hstep : chUpdateFoldStep
          (some { locked := true,
                  bal := { st.bal with keys := [], hashMap := fun _ => "" } }) ip = none := by
        show CHLocked.AddLocked
          { locked := true, bal := { st.bal with keys := [], hashMap := fun _ => "" } }
          (goSplit ip) = none
        unfold CHLocked.AddLocked
        have hne : ¬ (goSplit ip).length = 0 := by
          have := List.length_pos.mpr (goSplit_ne_nil ip)
          omega
        rw [if_neg hne]
        rfl
      rw [hstep, updateLocked_fold_none rest]
  · unfold CHLocked.UpdateLocked
    rw [hfree]
    rfl

theorem ch_update_deadlocks_witness :
    (CHLocked.mk false (NewConsistentHashBanlance 10 String.length)).UpdateLocked
        ["127.0.0.1:2003,10"] = none
    ∧ ((CHLocked.mk false (NewConsistentHashBanlance 10 String.length)).UpdateLocked
        []).isSome = true :=
  ch_update_deadlocks ⟨false, NewConsistentHashBanlance 10 String.length⟩
    ["127.0.0.1:2003,10"] rfl (by decide)

/-- One iteration's worth of interaction between the children-watch loop
and zookeeper: either the blocking `ChildrenW` call fails, or it yields
a `snapshot` after which the awaited event either carries an error
(`evtErr`) or fires normally; `room` records whether the bounded
snapshot channel had a free slot when the loop attempted its
non-blocking send. -/
inductive WatchStep where
  | fail : WatchStep
  | ok (snapshot : List String) (room : Bool) (evtErr : Bool) : WatchStep
deriving Repr, DecidableEq

/-- Observable outcome of the watch goroutine over a trace: snapshots
actually delivered, number of sends on the error channel, and whether
the goroutine returned (running the deferred `close` of both channels). -/
structure WatchResult where
  delivered : List (List String)
  errorsSent : Nat
  closed : Bool
deriving Repr, DecidableEq

/-- The children-watch loop of `WatchServerListByPath`: a failed watch
call delivers the error (the freshly made error channel always has
room) and returns, closing both channels; otherwise the snapshot is
sent when the channel has room and dropped when it is full, then the
loop waits for the event: an event error is delivered and ends the
loop, a normal event loops back to re-issue the watch.  An exhausted
trace leaves the goroutine still blocked in `ChildrenW`, channels open. -/
def watchLoop : List WatchStep → WatchResult
  | [] => { delivered := [], errorsSent := 0, closed := false }
  | .fail :: _ => { delivered := [], errorsSent := 1, closed := true }
  | .ok s room evtErr :: rest =>
    if evtErr then
      { delivered := if room then [s] else [], errorsSent := 1, closed := true }
    else
      let r := watchLoop rest
      { r with delivered := (if room then [s] else []) ++ r.delivered }

/-- Whether a trace makes the loop observe a watch-call or event error. -/
def hasWatchError : List WatchStep → Bool
  | [] => false
  | .fail :: _ => true
  | .ok _ _ e :: rest => e || hasWatchError rest

theorem watchLoop_error_char (t : List WatchStep) :
    (hasWatchError t = true →
      (watchLoop t).closed = true ∧ (watchLoop t).errorsSent = 1)
    ∧ (hasWatchError t = false →
      (watchLoop t).closed = false ∧ (watchLoop t).errorsSent = 0) := by
  induction t with
  | nil =>
    constructor
    · intro h
      cases h
    · intro _
      exact ⟨rfl, rfl⟩
  | cons step rest ih =>
    rcases step with _ | ⟨s, room, evtErr⟩
    · constructor
      · intro _
        exact ⟨rfl, rfl⟩
      · intro h
        cases h
    · rcases evtErr with _ | _
      · constructor
        · intro h
          have hrest : hasWatchError rest = true := by
            simpa [hasWatchError] using h
          show ((watchLoop rest).closed = true ∧ _)
          exact ih.1 hrest
        · intro h
          have hrest : hasWatchError rest = false := by
            simpa [hasWatchError] using h
          exact ih.2 hrest
      · constructor
        · intro _
          show (watchLoop (.ok s room true :: rest)).closed = true
            ∧ (watchLoop (.ok s room true :: rest)).errorsSent = 1
          simp [watchLoop]
        · intro h
          simp [hasWatchError] at h

/-- C8: over any trace the watch loop sends at most one error; a full
snapshot channel (`room = false`) makes the loop drop that snapshot and
continue exactly as if the iteration's send had not happened; and
whenever the trace contains a watch-call or event error, the loop
returns — running the deferred close of both channels — having
delivered the error exactly once. -/
theorem watch_loop_contract (t : List WatchStep) (s : List String)
    (rest : List WatchStep) :
    (watchLoop t).errorsSent ≤ 1
    ∧ watchLoop (.ok s false false :: rest) = watchLoop rest
    ∧ (hasWatchError t = true →
        (watchLoop t).closed = true ∧ (watchLoop t).errorsSent = 1) := by
  refine ⟨?_, ?_, (watchLoop_error_char t).1⟩
  · rcases he : hasWatchError t with _ | _
    · rw [((watchLoop_error_char t).2 he).2]
      omega
    · rw [((watchLoop_error_char t).1 he).2]
  · show { watchLoop rest with
      delivered := (if false then [s] else []) ++ (watchLoop rest).delivered }
      = watchLoop rest
    simp

theorem watch_loop_contract_witness :
    (watchLoop [.ok ["a"] true false, .fail]).errorsSent ≤ 1
    ∧ watchLoop [.ok ["b"] false false, .fail] = watchLoop [.fail]
    ∧ ((watchLoop [.ok ["a"] true false, .fail]).closed = true
      ∧ (watchLoop [.ok ["a"] true false, .fail]).errorsSent = 1) :=
  ⟨(watch_loop_contract [.ok ["a"] true false, .fail] ["b"] [.fail]).1,
   (watch_loop_contract [.ok ["a"] true false, .fail] ["b"] [.fail]).2.1,
   (watch_loop_contract [.ok ["a"] true false, .fail] ["b"] [.fail]).2.2 (by decide)⟩

/-- C5 counterexample: the unsynchronized `RoundRobinBalance.Update`
rebuilds the pool but leaves the selection cursor untouched, so the
cursor is not reset. -/
theorem update_cursor_not_reset :
    ((RoundRobinBalance.mk 2 ["x", "y", "z"]).UpdateLegacy
      ["a", "b", "c", "d", "e"]).curIndex ≠ 0 := by decide

/-- C5 (amended): every `Update` rebuilds its pool from exactly the
`GetConf()` snapshot, discarding the previous pool entirely; the
synchronized round-robin `Update` also resets the cursor to 0, while the
unsynchronized variant keeps the old cursor; in either case — and for
the weighted strategy — every subsequent `Next` selects only among
addresses of the new snapshot, since selection indexes modulo the new
pool. -/
theorem update_rebuilds_pool (r : RoundRobinBalance) (w : WeightRoundRobinBalance)
    (conf : List String) :
    (r.Update conf).rss = conf.map firstField
    ∧ (r.Update conf).curIndex = 0
    ∧ (r.UpdateLegacy conf).rss = conf.map firstField
    ∧ (r.UpdateLegacy conf).curIndex = r.curIndex
    ∧ (w.Update conf).rss = conf.filterMap entryNode
    ∧ (∀ s : RoundRobinBalance, s.rss ≠ [] → s.Next.1 ∈ s.rss)
    ∧ (∀ s : WeightRoundRobinBalance, s.rss ≠ [] → ∃ n ∈ s.rss, s.Next.1 = n.addr) := by
  obtain ⟨h1, h2⟩ := RoundRobinBalance.update_rss r conf
  obtain ⟨h3, h4⟩ := RoundRobinBalance.updateLegacy_rss r conf
  obtain ⟨h5, _⟩ := WeightRoundRobinBalance.updateRss w conf
  exact ⟨h1, h2, h3, h4, h5, rrNext_mem, wrrNext_mem⟩

theorem update_rebuilds_pool_witness :
    ((RoundRobinBalance.mk 7 ["old"]).Update ["a,1", "b"]).rss = ["a", "b"]
    ∧ ((RoundRobinBalance.mk 7 ["old"]).Update ["a,1", "b"]).curIndex = 0
    ∧ (RoundRobinBalance.mk 0 ["p", "q"]).Next.1 ∈ ["p", "q"] :=
  ⟨((update_rebuilds_pool ⟨7, ["old"]⟩ ⟨0, []⟩ ["a,1", "b"]).1).trans (by decide),
   (update_rebuilds_pool ⟨7, ["old"]⟩ ⟨0, []⟩ ["a,1", "b"]).2.1,
   (update_rebuilds_pool ⟨7, ["old"]⟩ ⟨0, []⟩ ["a,1", "b"]).2.2.2.2.2.1
     ⟨0, ["p", "q"]⟩ (by decide)⟩

/-- C10: the weighted `Update` adds only entries that split on ',' into
at least two fields: every rebuilt node stems from such an entry and
takes its first field as address; inserting an entry with fewer than two
fields anywhere in the snapshot has no effect at all (it is skipped
silently, `Update` reporting no error); and a snapshot whose entries all
lack a weight field leaves the weighted pool empty. -/
theorem wrr_update_requires_weight (r : WeightRoundRobinBalance) (conf : List String) :
    (∀ n ∈ (r.Update conf).rss,
      ∃ ip ∈ conf, 2 ≤ (goSplit ip).length ∧ n.addr = firstField ip)
    ∧ (∀ pre post ip, (goSplit ip).length < 2 →
        r.Update (pre ++ ip :: post) = r.Update (pre ++ post))
    ∧ ((∀ ip ∈ conf, (goSplit ip).length < 2) → (r.Update conf).rss = []) := by
  obtain ⟨hrss, hcur⟩ := WeightRoundRobinBalance.updateRss r conf
  refine ⟨?_, ?_, ?_⟩
  · intro n hn
    rw [hrss] at hn
    obtain ⟨ip, hip, hsome⟩ := List.mem_filterMap.mp hn
    unfold entryNode at hsome
    by_cases hl : 2 ≤ (goSplit ip).length
    · rw [if_pos hl] at hsome
      refine ⟨ip, hip, hl, ?_⟩
      rcases hp : goParseInt ((goSplit ip).getD 1 "") with _ | v
      · rw [hp] at hsome
        cases hsome
      · rw [hp] at hsome
        cases hsome
        show (goSplit ip).getD 0 "" = firstField ip
        rw [getD_zero_eq_headD]
        rfl
    · rw [if_neg hl] at hsome
      cases hsome
  · intro pre post ip hlt
    have hn : entryNode ip = none := by
      unfold entryNode
      rw [if_neg (by omega)]
    unfold WeightRoundRobinBalance.Update
    rw [WeightRoundRobinBalance.updateFold (pre ++ ip :: post),
        WeightRoundRobinBalance.updateFold (pre ++ post)]
    rw [List.filterMap_append, List.filterMap_append, List.filterMap_cons, hn]
  · intro hall
    rw [hrss]
    exact List.filterMap_eq_nil.mpr (fun ip hip => by
      unfold entryNode
      rw [if_neg (by have := hall ip hip; omega)])

theorem wrr_update_requires_weight_witness :
    ((WeightRoundRobinBalance.mk 0 []).Update (["h1,5"] ++ "bare" :: ["h2,7"])
      = (WeightRoundRobinBalance.mk 0 []).Update (["h1,5"] ++ ["h2,7"]))
    ∧ ((WeightRoundRobinBalance.mk 0 []).Update ["10.0.0.1", "10.0.0.2"]).rss = [] :=
  ⟨(wrr_update_requires_weight ⟨0, []⟩ []).2.1 ["h1,5"] ["h2,7"] "bare" (by decide),
   (wrr_update_requires_weight ⟨0, []⟩ ["10.0.0.1", "10.0.0.2"]).2.2 (by decide)⟩

/-- One thread of the concurrent round-robin benchmark against the
unsynchronized `Next` (the mutex-free copy of the file): the next-index
value it has computed but not yet written back — the two halves of the
unprotected `r.curIndex = (r.curIndex + 1) % lens` — plus how many calls
it still has to start and how many it has completed. -/
structure RaceThread where
  pending : Option Nat
  remaining : Nat
  done : Nat
deriving Repr, DecidableEq

/-- The shared state of the benchmark: the shared cursor and every
thread's private state.  The pool itself is read-only during the run;
only its length matters for the cursor. -/
structure RaceState where
  cur : Nat
  threads : List RaceThread
deriving Repr, DecidableEq

/-- One scheduler step of thread `tid`: a thread holding a computed
next-index writes it to the shared cursor, completing one call;
otherwise, if calls remain, it reads the shared cursor and computes
`(cur + 1) % len`.  Finished or unknown thread ids do nothing. -/
def raceStep (len : Nat) (st : RaceState) (tid : Nat) : RaceState :=
  match st.threads[tid]? with
  | none => st
  | some t =>
    match t.pending with
    | some w =>
      { cur := w,
        threads := (st.threads.set tid
          { pending := none, remaining := t.remaining, done := t.done + 1 }) }
    | none =>
      if t.remaining = 0 then st
      else
        { st with threads := (st.threads.set tid
            { pending := some ((st.cur + 1) % len), remaining := t.remaining - 1,
              done := t.done }) }

/-- Run a schedule, i.e. a list of thread ids, one step each. -/
def raceRun (len : Nat) (st : RaceState) (sched : List Nat) : RaceState :=
  sched.foldl (raceStep len) st

/-- `k` uninterrupted read-then-write call pairs of thread `tid`. -/
def soloSched (tid : Nat) : Nat → List Nat
  | 0 => []
  | k + 1 => tid :: tid :: soloSched tid k

theorem raceRun_append (len : Nat) (st : RaceState) (a b : List Nat) :
    raceRun len st (a ++ b) = raceRun len (raceRun len st a) b := by
  unfold raceRun
  exact List.foldl_append _ _ _ _

theorem raceStep_read (len : Nat) (st : RaceState) (tid r d : Nat)
    (ht : st.threads[tid]? = some ⟨none, r, d⟩) (hr : r ≠ 0) :
    raceStep len st tid
      = { st with threads := (st.threads.set tid
          ⟨some ((st.cur + 1) % len), r - 1, d⟩) } := by
  unfold raceStep
  rw [ht]
  show (if r = 0 then st else _) = _
  rw [if_neg hr]

theorem raceStep_write (len : Nat) (st : RaceState) (tid w r d : Nat)
    (ht : st.threads[tid]? = some ⟨some w, r, d⟩) :
    raceStep len st tid
      = { cur := w, threads := (st.threads.set tid ⟨none, r, d + 1⟩) } := by
  unfold raceStep
  rw [ht]

theorem set_self_of_getElem? (l : List RaceThread) (n : Nat) (v : RaceThread)
    (h : l[n]? = some v) : l.set n v = l := by
  apply List.ext_getElem?
  intro j
  rw [List.getElem?_set]
  by_cases hj : n = j
  · subst hj
    obtain ⟨hlt, hv⟩ := List.getElem?_eq_some.mp h
    rw [if_pos rfl, if_pos hlt, h]
  · rw [if_neg hj]

theorem raceRun_solo (len : Nat) (hlen : 0 < len) (tid : Nat) :
    ∀ (k : Nat) (st : RaceState) (r d : Nat),
    st.threads[tid]? = some ⟨none, r, d⟩ → k ≤ r → st.cur < len →
    raceRun len st (soloSched tid k)
      = { cur := (st.cur + k) % len,
          threads := (st.threads.set tid ⟨none, r - k, d + k⟩) } := by
  intro k
  induction k with
  | zero =>
    intro st r d ht hk hcur
    show st = _
    rw [Nat.add_zero, Nat.mod_eq_of_lt hcur, Nat.sub_zero, Nat.add_zero]
    rw [set_self_of_getElem? st.threads tid ⟨none, r, d⟩ ht]
  | succ k ih =>
    intro st r d ht hk hcur
    have htl : tid < st.threads.length := (List.getElem?_eq_some.mp ht).1
    show raceRun len st (tid :: tid :: soloSched tid k) = _
    rw [show (tid :: tid :: soloSched tid k)
        = [tid, tid] ++ soloSched tid k from rfl, raceRun_append]
    have h1 : raceRun len st [tid, tid]
        = { cur := (st.cur + 1) % len,
            threads := (st.threads.set tid ⟨none, r - 1, d + 1⟩) } := by
      show raceStep len (raceStep len st tid) tid = _
      rw [raceStep_read len st tid r d ht (by omega)]
      rw [raceStep_write len _ tid ((st.cur + 1) % len) (r - 1) d
        (by show (st.threads.set tid ⟨some ((st.cur + 1) % len), r - 1, d⟩)[tid]? = _
            rw [List.getElem?_set, if_pos rfl, if_pos htl])]
      rw [List.set_set]
    rw [h1]
    rw [ih { cur := (st.cur + 1) % len,
             threads := (st.threads.set tid ⟨none, r - 1, d + 1⟩) } (r - 1) (d + 1)
      (by show (st.threads.set tid ⟨none, r - 1, d + 1⟩)[tid]? = _
          rw [List.getElem?_set, if_pos rfl, if_pos htl])
      (by omega)
      (by show (st.cur + 1) % len < len
          exact Nat.mod_lt _ hlen)]
    show RaceState.mk _ _ = RaceState.mk _ _
    rw [List.set_set]
    have hcur2 : ((st.cur + 1) % len + k) % len = (st.cur + (k + 1)) % len := by
      rw [Nat.mod_add_mod]
      congr 1
      omega
    have hr2 : r - 1 - k = r - (k + 1) := by omega
    have hd2 : d + 1 + k = d + (k + 1) := by omega
    rw [hcur2, hr2, hd2]

/-- C9 counterexample: two threads, each making 100000 calls of the
unsynchronized `Next` against a shared pool of 3 addresses, under a
schedule whose first two calls interleave their read and write halves:
both threads read cursor 0 and both write 1, losing one increment.  All
200000 calls complete (200000 selections), yet the final cursor is 1
while `(2 * 100000) % 3 = 2`. -/
theorem rr_race_lost_update :
    (raceRun 3 ⟨0, [⟨none, 100000, 0⟩, ⟨none, 100000, 0⟩]⟩
        ([0, 1, 0, 1] ++ soloSched 0 99999 ++ soloSched 1 99999)).cur = 1
    ∧ ((raceRun 3 ⟨0, [⟨none, 100000, 0⟩, ⟨none, 100000, 0⟩]⟩
        ([0, 1, 0, 1] ++ soloSched 0 99999 ++ soloSched 1 99999)).threads.map
          (fun t => t.done)).sum = 2 * 100000
    ∧ (2 * 100000) % 3 ≠ 1 := by
  have hmid : raceRun 3 ⟨0, [⟨none, 100000, 0⟩, ⟨none, 100000, 0⟩]⟩ [0, 1, 0, 1]
      = ⟨1, [⟨none, 99999, 1⟩, ⟨none, 99999, 1⟩]⟩ := rfl
  have hA := raceRun_solo 3 (by omega) 0 99999
    ⟨1, [⟨none, 99999, 1⟩, ⟨none, 99999, 1⟩]⟩ 99999 1 rfl (le_refl _) (by decide)
  have hA' : raceRun 3 ⟨1, [⟨none, 99999, 1⟩, ⟨none, 99999, 1⟩]⟩ (soloSched 0 99999)
      = ⟨1, [⟨none, 0, 100000⟩, ⟨none, 99999, 1⟩]⟩ := by
    rw [hA]
    decide
  have hB := raceRun_solo 3 (by omega) 1 99999
    ⟨1, [⟨none, 0, 100000⟩, ⟨none, 99999, 1⟩]⟩ 99999 1 rfl (le_refl _) (by decide)
  have hB' : raceRun 3 ⟨1, [⟨none, 0, 100000⟩, ⟨none, 99999, 1⟩]⟩ (soloSched 1 99999)
      = ⟨1, [⟨none, 0, 100000⟩, ⟨none, 0, 100000⟩]⟩ := by
    rw [hB]
    decide
  have hfinal : raceRun 3 ⟨0, [⟨none, 100000, 0⟩, ⟨none, 100000, 0⟩]⟩
      ([0, 1, 0, 1] ++ soloSched 0 99999 ++ soloSched 1 99999)
      = ⟨1, [⟨none, 0, 100000⟩, ⟨none, 0, 100000⟩]⟩ := by
    rw [raceRun_append, raceRun_append, hmid, hA', hB']
  rw [hfinal]
  refine ⟨rfl, by decide, by decide⟩

/-- C9 (amended): with the mutex-protected variant every `Next` call is
one critical section, so any concurrent execution of `T` total calls is
equivalent to some sequence of `T` atomic calls: it produces exactly `T`
selections, leaves the pool unchanged, and leaves the cursor at
`(initial + T) mod poolSize`.  The repository's unsynchronized variant
admits interleavings that lose cursor increments, so the final-cursor
clause fails for it (see the counterexample). -/
theorem rr_serialized_calls (r : RoundRobinBalance) (T : Nat) (h : 0 < r.rss.length)
    (hT : 0 < T) :
    (r.run T).1.length = T
    ∧ (r.run T).2.rss = r.rss
    ∧ (r.run T).2.curIndex = (r.curIndex + T) % r.rss.length :=
  ⟨RoundRobinBalance.run_fst_length r T, RoundRobinBalance.run_rss r T,
   RoundRobinBalance.run_cur r h T hT⟩

theorem rr_serialized_calls_witness :
    ((RoundRobinBalance.mk 0 ["a", "b", "c"]).run 200000).1.length = 200000
    ∧ ((RoundRobinBalance.mk 0 ["a", "b", "c"]).run 200000).2.rss = ["a", "b", "c"]
    ∧ ((RoundRobinBalance.mk 0 ["a", "b", "c"]).run 200000).2.curIndex
        = (0 + 200000) % 3 :=
  rr_serialized_calls ⟨0, ["a", "b", "c"]⟩ 200000 (by decide) (by decide)
